import Mathlib

/-!
Verification development for the `id-set` bitset / id-allocator library.

The library stores boolean flags in fixed-width machine words.  We embed it
shallowly: a backing array of words is a `List Nat`, each word value kept
below `2 ^ W` where `W` is the word width in bits (the source instantiates
its macros at widths 16/32/64/128 and at `usize::BITS`, which is 64 on the
modeled 64-bit platform; we keep `W` as an explicit parameter).  `usize`
values are `Nat`s below `2 ^ 64`.  Fallible operations return `Option` or
`Except`; a Rust panic (an `unwrap` failure) is modeled as the `none`
result of an outer `Option`.  Atomic read-modify-write operations are
modeled sequentially by their per-word effect, and additionally by an
explicit interleaved small-step machine (`concStep`) in which every atomic
instruction of `set_next_free_bit` is one step; each `fetch_update` is
linearized at the atomic load or compare-and-swap that decides it.
-/

/-- Number of value bits of `usize` on the modeled 64-bit platform. -/
def usizeBits : Nat := 64

/-- Structural-fuel helper for `trailing_zeros`; the fuel argument makes the
definition kernel-reducible.  `tzGo fuel n` counts trailing zero bits of `n`
as long as `n ≤ fuel` and `n ≠ 0`. -/
def tzGo : Nat → Nat → Nat
  | 0, _ => 0
  | fuel + 1, n => if n % 2 = 1 then 0 else if n = 0 then 0 else tzGo fuel (n / 2) + 1

/-- Trailing-zero count of a positive natural number. -/
def tz (n : Nat) : Nat := tzGo n n

/-- Rust `<$ty>::trailing_zeros` at width `W`: the width itself when the
value is zero, else the index of the least set bit. -/
def rustTZ (W n : Nat) : Nat := if n = 0 then W else tz n

/-- Structural-fuel helper for `count_ones`. -/
def popCountGo : Nat → Nat → Nat
  | 0, _ => 0
  | fuel + 1, n => if n = 0 then 0 else n % 2 + popCountGo fuel (n / 2)

/-- Rust `count_ones`: number of set bits of a word value. -/
def popCount (n : Nat) : Nat := popCountGo n n

/-- Rust bitwise complement `!x` at word width `W`. -/
def complW (W x : Nat) : Nat := (2 ^ W - 1) ^^^ x

/-- Rust `usize::try_from` on a (possibly wider than 64 bit) nonnegative
value: succeeds exactly when the value fits in `usize`. -/
def tryFromUsize (n : Nat) : Option Nat := if n < 2 ^ usizeBits then some n else none

/-- Embedding of `utils::rotate_left` / the private `rotate_left` in
`lib.rs`: `slice.split_at(n)` followed by `right.iter().chain(left)`.
`split_at` panics when `n` exceeds the length; claim C8 shows the argument
used by the library is always in bounds, so we use the total function. -/
def rotateLeftSlice (l : List α) (n : Nat) : List α := l.drop n ++ l.take n

/-- Rust `Vec::resize(n, d)`: truncates to `n` elements or extends with
copies of `d`. -/
def rustResize (v : List α) (n : Nat) (d : α) : List α :=
  if n ≤ v.length then v.take n else v ++ List.replicate (n - v.length) d

/-! ## `bitset.rs` — the read-only `BitSet` capability on `[$ty]`

`capacity` computes `self.len() as $ty * $ty::BITS as $ty`; the `as` casts
truncate modulo `2 ^ W` and the multiplication wraps (release-profile
semantics).  `has` converts `index / $ty::BITS` with `usize::try_from`,
returning `false` on failure, and then uses the checked `get`. -/

/-- Embedding of `<[$ty] as BitSet>::capacity` (and its atomic-word twin,
which has the identical body). -/
def sliceCapacity (W : Nat) (s : List Nat) : Nat :=
  ((s.length % 2 ^ W) * (W % 2 ^ W)) % 2 ^ W

/-- The `capacity` formula at width 32 as a function of the word count
alone; definitionally equal to `sliceCapacity 32` composed with `length`
(used to evaluate `capacity` on a very long backing array without ever
materializing the array). -/
def capacityFormula32 (n : Nat) : Nat := ((n % 2 ^ 32) * (32 % 2 ^ 32)) % 2 ^ 32

/-- Embedding of `<[$ty] as BitSet>::has` (and its atomic-word twin). -/
def sliceHas (W : Nat) (s : List Nat) (index : Nat) : Bool :=
  match tryFromUsize (index / W) with
  | none => false
  | some slotIdx =>
    let mask := 1 <<< (index % W)
    match s[slotIdx]? with
    | some slot => slot &&& mask != 0
    | none => false

/-- Embedding of `<[$ty] as BitSet>::is_empty`. -/
def sliceIsEmpty (s : List Nat) : Bool := s.all (fun slot => slot == 0)

/-- Embedding of `<[$ty] as BitSet>::size`: sum of `count_ones` over the
words; the Rust iterator `sum::<$ty>` wraps at the word width. -/
def sliceSize (W : Nat) (s : List Nat) : Nat :=
  s.foldl (fun acc slot => (acc + popCount slot) % 2 ^ W) 0

/-! ## `bitset_mut.rs` — the exclusive `BitSetMut` capability

Each mutating operation returns its result together with the new backing
list.  `<[$ty]>::insert` computes the slot index with
`usize::try_from(index / $ty::BITS).unwrap()`; the `unwrap` aborts when the
quotient does not fit `usize` (reachable only at `$ty = u128`), which we
model as the result `none`.  `remove` uses `.ok()?` instead and therefore
returns `None` on the same inputs. -/

/-- Embedding of `<[$ty] as BitSetMut>::clear`: overwrites every word with 0. -/
def sliceClear (s : List Nat) : List Nat := s.map fun _ => 0

/-- Embedding of `<[$ty] as BitSetMut>::insert`.  Result `none` is the
`unwrap` panic; `some (Except.error slotIdx)` is `Err(slot_idx)`;
`some (Except.ok prev)` is `Ok(previous bit)`. -/
def sliceInsert (W : Nat) (s : List Nat) (index : Nat) :
    Option (Except Nat Bool) × List Nat :=
  match tryFromUsize (index / W) with
  | none => (none, s)
  | some slotIdx =>
    let mask := 1 <<< (index % W)
    match s[slotIdx]? with
    | none => (some (Except.error slotIdx), s)
    | some slot =>
      (some (Except.ok (slot &&& mask != 0)), s.set slotIdx (slot ||| mask))

/-- Embedding of `<[$ty] as BitSetMut>::remove`.  Result `none` is
`None` (out of range); `some prev` is `Some(previous bit)`. -/
def sliceRemove (W : Nat) (s : List Nat) (index : Nat) : Option Bool × List Nat :=
  match tryFromUsize (index / W) with
  | none => (none, s)
  | some slotIdx =>
    let mask := 1 <<< (index % W)
    match s[slotIdx]? with
    | none => (none, s)
    | some slot =>
      (some (slot &&& mask != 0), s.set slotIdx (slot &&& complW W mask))

/-- Embedding of `<Vec<T> as BitSetMut>::clear`, which is `Vec::clear`:
it removes every element of the vector. -/
def vecClear (_ : List Nat) : List Nat := []

/-- Embedding of `<Vec<T> as BitSetMut>::insert`: try the slice insert;
on `Err(slot_index)` resize to `slot_index + 1` words (new words are
`T::default() = 0`) and retry. -/
def vecInsert (W : Nat) (v : List Nat) (index : Nat) :
    Option (Except Nat Bool) × List Nat :=
  match sliceInsert W v index with
  | (some (Except.error slotIndex), s1) =>
    sliceInsert W (rustResize s1 (slotIndex + 1) 0) index
  | other => other

/-- Embedding of `<Vec<T> as BitSetMut>::remove`: delegates to the slice
remove. -/
def vecRemove (W : Nat) (v : List Nat) (index : Nat) : Option Bool × List Nat :=
  sliceRemove W v index

/-! ## `shared_bitset.rs` — the `SharedBitSet` capability on atomic words

Sequential effect of the atomic operations: `insert` is `fetch_or`,
`remove` is `fetch_and` with the complemented mask, both returning the
previous word value; the slot index conversion uses `.ok()?`. -/

/-- Embedding of `<[Atomic$ty] as SharedBitSet>::clear`. -/
def sharedClear (s : List Nat) : List Nat := s.map fun _ => 0

/-- Embedding of `<[Atomic$ty] as SharedBitSet>::insert`. -/
def sharedInsert (W : Nat) (s : List Nat) (index : Nat) : Option Bool × List Nat :=
  match tryFromUsize (index / W) with
  | none => (none, s)
  | some slotIdx =>
    let mask := 1 <<< (index % W)
    match s[slotIdx]? with
    | none => (none, s)
    | some slot =>
      (some (slot &&& mask != 0), s.set slotIdx (slot ||| mask))

/-- Embedding of `<[Atomic$ty] as SharedBitSet>::remove`. -/
def sharedRemove (W : Nat) (s : List Nat) (index : Nat) : Option Bool × List Nat :=
  match tryFromUsize (index / W) with
  | none => (none, s)
  | some slotIdx =>
    let mask := 1 <<< (index % W)
    match s[slotIdx]? with
    | none => (none, s)
    | some slot =>
      (some (slot &&& mask != 0), s.set slotIdx (slot &&& complW W mask))

/-! ## `lib.rs` — `IdSet` and `IdAllocator`

`SLOT_SIZE = usize::BITS`; we keep it as the parameter `W`.  `set` and
`remove` return `Option Bool`, with `none` standing for
`Err(OutOfBoundsError)`.  `IdAllocator` pairs the slot array with the
advisory rotation cursor. -/

/-- Embedding of `IdSet::has`. -/
def idSetHas (W : Nat) (s : List Nat) (id : Nat) : Bool :=
  let slotIdx := id / W
  let mask := 1 <<< (id % W)
  match s[slotIdx]? with
  | some slot => slot &&& mask != 0
  | none => false

/-- Embedding of `IdSet::set` (`fetch_or` on the addressed slot); `none`
models `Err(OutOfBoundsError)`. -/
def idSetSet (W : Nat) (s : List Nat) (id : Nat) : Option Bool × List Nat :=
  let slotIdx := id / W
  let mask := 1 <<< (id % W)
  match s[slotIdx]? with
  | none => (none, s)
  | some slot => (some (slot &&& mask != 0), s.set slotIdx (slot ||| mask))

/-- Embedding of `IdSet::remove` (`fetch_and` with the complemented mask). -/
def idSetRemove (W : Nat) (s : List Nat) (id : Nat) : Option Bool × List Nat :=
  let slotIdx := id / W
  let mask := 1 <<< (id % W)
  match s[slotIdx]? with
  | none => (none, s)
  | some slot => (some (slot &&& mask != 0), s.set slotIdx (slot &&& complW W mask))

/-- Embedding of `IdSet::clear`: stores 0 into every slot. -/
def idSetClear (s : List Nat) : List Nat := s.map fun _ => 0

/-- Embedding of `IdSet::total_ids`: sum of `count_ones() as usize`; the
`usize` sum wraps at the word width. -/
def idSetTotal (W : Nat) (s : List Nat) : Nat :=
  s.foldl (fun acc slot => (acc + popCount slot) % 2 ^ W) 0

/-- State of an `IdAllocator`: the `IdSet` slots plus the rotation cursor. -/
structure AllocState where
  slots : List Nat
  rot : Nat
deriving DecidableEq, Repr

/-- Sequential loop body of `IdAllocator::next_id` /
`AtomicBitSet::set_next_free_bit`: walk the rotated word order; on a
non-full word commit the lowest free bit (the `fetch_update` succeeds
immediately when there is no interference), update the rotation cursor when
the succeeding word index differs from the one read at the start, and
return `word index * W + bit offset`. -/
def nextIdGo (W skip : Nat) : AllocState → List Nat → Option Nat × AllocState
  | st, [] => (none, st)
  | st, w :: rest =>
    let curr := st.slots.getD w 0
    if curr = 2 ^ W - 1 then
      nextIdGo W skip st rest
    else
      let nextAvailableBit := rustTZ W (complW W curr)
      let slots1 := st.slots.set w (curr ||| (1 <<< nextAvailableBit))
      let rot1 := if skip != w then w else st.rot
      (some (w * W + nextAvailableBit), { slots := slots1, rot := rot1 })

/-- Sequential embedding of `IdAllocator::next_id` (and of
`AtomicBitSet::set_next_free_bit`, whose body is identical): read the
rotation cursor, then scan the words in the rotated order. -/
def nextId (W : Nat) (st : AllocState) : Option Nat × AllocState :=
  nextIdGo W st.rot st (rotateLeftSlice (List.range st.slots.length) st.rot)

/-- Repeatedly call `next_id`, collecting the returned ids until the first
`None` (fuel-bounded so that the definition computes). -/
def nextIds (W : Nat) : Nat → AllocState → List Nat × AllocState
  | 0, st => ([], st)
  | fuel + 1, st =>
    match nextId W st with
    | (none, st1) => ([], st1)
    | (some i, st1) =>
      let rest := nextIds W fuel st1
      (i :: rest.1, rest.2)

/-! ## Interleaved model of `AtomicBitSet::set_next_free_bit`

Each thread executes one call.  A thread passes through the states below;
every transition of `concStep` is one atomic instruction of the source:
the `Relaxed` load of `rotation`, one decided `fetch_update` on a word (its
deciding atomic load when the word is full, its successful compare-and-swap
otherwise), the `Relaxed` store to `rotation` together with the return, or
the `None` return.  The per-word compare-and-swap makes each `fetch_update`
linearizable at exactly one of those two instructions, so this step machine
covers every interleaving of the source under the C11 atomics it uses. -/

/-- Thread-local state of one in-flight `set_next_free_bit` call. -/
inductive ThreadSt where
  | idle : ThreadSt
  | scanning (skip : Nat) (pending : List Nat) : ThreadSt
  | claimed (skip w v : Nat) : ThreadSt
  | done (res : Option Nat) : ThreadSt
deriving DecidableEq, Repr

/-- Global configuration: the shared word array, the shared rotation
cursor, and every thread. -/
structure Conc where
  slots : List Nat
  rot : Nat
  threads : List ThreadSt
deriving DecidableEq, Repr

/-- One atomic step of thread `t` (no-op for an absent or finished thread). -/
def concStep (W : Nat) (c : Conc) (t : Nat) : Conc :=
  match c.threads[t]? with
  | none => c
  | some th =>
    match th with
    | ThreadSt.idle =>
      let skip := c.rot
      let order := rotateLeftSlice (List.range c.slots.length) skip
      { c with threads := c.threads.set t (ThreadSt.scanning skip order) }
    | ThreadSt.scanning _ [] =>
      { c with threads := c.threads.set t (ThreadSt.done none) }
    | ThreadSt.scanning skip (w :: rest) =>
      let curr := c.slots.getD w 0
      if curr = 2 ^ W - 1 then
        { c with threads := c.threads.set t (ThreadSt.scanning skip rest) }
      else
        let nextAvailableBit := rustTZ W (complW W curr)
        let slots1 := c.slots.set w (curr ||| (1 <<< nextAvailableBit))
        { c with slots := slots1, threads := c.threads.set t (ThreadSt.claimed skip w curr) }
    | ThreadSt.claimed skip w v =>
      let nextAvailableBit := rustTZ W (complW W v)
      let rot1 := if skip != w then w else c.rot
      { c with rot := rot1, threads := c.threads.set t (ThreadSt.done (some (w * W + nextAvailableBit))) }
    | ThreadSt.done _ => c

/-- Run a schedule: a list of thread choices, applied left to right. -/
def concRun (W : Nat) (c : Conc) (sched : List Nat) : Conc :=
  sched.foldl (concStep W) c

/-- Initial configuration: `N` zeroed words, cursor 0, `C` idle threads. -/
def concInit (N C : Nat) : Conc :=
  { slots := List.replicate N 0, rot := 0, threads := List.replicate C ThreadSt.idle }

/-- Index returned (or already committed) by a thread, if any: a `claimed`
thread has already set its bit and will return `w * W + offset`. -/
def threadResult (W : Nat) : ThreadSt → Option Nat
  | ThreadSt.claimed _ w v => some (w * W + rustTZ W (complW W v))
  | ThreadSt.done (some i) => some i
  | _ => none

/-- All indices committed so far in a configuration. -/
def claimResults (W : Nat) (c : Conc) : List Nat :=
  c.threads.filterMap (threadResult W)

/-- Index returned by a finished thread, if it finished successfully. -/
def doneResult : ThreadSt → Option Nat
  | ThreadSt.done (some i) => some i
  | _ => none

/-- Indices returned by the threads that have finished successfully. -/
def concResults (c : Conc) : List Nat :=
  c.threads.filterMap doneResult

/-- Boolean: the thread has finished (with either result). -/
def isDone : ThreadSt → Bool
  | ThreadSt.done _ => true
  | _ => false

/-- Boolean: the thread has finished empty-handed. -/
def isDoneNone : ThreadSt → Bool
  | ThreadSt.done none => true
  | _ => false

/-- Boolean: every thread of the configuration has finished. -/
def allDone (c : Conc) : Bool := c.threads.all isDone

/-- Global bit `i` of a word array, as addressed by the library:
bit `i % W` of word `i / W`. -/
def bitAt (W : Nat) (s : List Nat) (i : Nat) : Bool :=
  (s.getD (i / W) 0).testBit (i % W)

instance : DecidableEq (Except Nat Bool) := fun x y =>
  match x, y with
  | Except.ok a, Except.ok b =>
    if h : a = b then isTrue (by rw [h]) else isFalse (by intro hc; cases hc; exact h rfl)
  | Except.error a, Except.error b =>
    if h : a = b then isTrue (by rw [h]) else isFalse (by intro hc; cases hc; exact h rfl)
  | Except.ok _, Except.error _ => isFalse (by intro hc; cases hc)
  | Except.error _, Except.ok _ => isFalse (by intro hc; cases hc)

/-- Per-thread invariant of the interleaved model: a scanning thread has
walked a prefix of its rotated word order, and every word it walked past
was observed full (word values only grow, so those words are still full);
a thread that returned `None` observed every word full. -/
def ThreadInv (W N : Nat) (slots : List Nat) : ThreadSt → Prop
  | ThreadSt.idle => True
  | ThreadSt.scanning skip pending =>
    skip < N ∧ ∃ pre, rotateLeftSlice (List.range N) skip = pre ++ pending ∧
      ∀ w ∈ pre, slots.getD w 0 = 2 ^ W - 1
  | ThreadSt.claimed skip w v => skip < N ∧ w < N ∧ v < 2 ^ W ∧ v ≠ 2 ^ W - 1
  | ThreadSt.done none => ∀ w, w < N → slots.getD w 0 = 2 ^ W - 1
  | ThreadSt.done (some _) => True

/-- Global invariant of the interleaved model: sizes are stable, word
values stay below `2 ^ W`, the rotation cursor stays below the word count,
every thread satisfies its local invariant, and the indices committed so
far are exactly the set bits of the array, with no duplicates. -/
structure ConcInv (W N C : Nat) (c : Conc) : Prop where
  slotsLen : c.slots.length = N
  threadsLen : c.threads.length = C
  slotsLt : ∀ v ∈ c.slots, v < 2 ^ W
  rotLt : c.rot < N
  threadOk : ∀ th ∈ c.threads, ThreadInv W N c.slots th
  resNodup : (claimResults W c).Nodup
  resIff : ∀ i, i ∈ claimResults W c ↔ i < N * W ∧ bitAt W c.slots i = true

/-! ## Helper lemmas -/

theorem tzGo_spec : ∀ fuel n, n ≠ 0 → n ≤ fuel →
    Nat.testBit n (tzGo fuel n) = true ∧ ∀ j, j < tzGo fuel n → Nat.testBit n j = false := by
  intro fuel
  induction fuel with
  | zero => intro n h0 hle; omega
  | succ fuel ih =>
    intro n h0 hle
    by_cases hodd : n % 2 = 1
    · refine ⟨by simp [tzGo, hodd], ?_⟩
      intro j hj
      simp [tzGo, hodd] at hj
    · have hne2 : n / 2 ≠ 0 := by omega
      have hle2 : n / 2 ≤ fuel := by omega
      obtain ⟨h1, h2⟩ := ih (n / 2) hne2 hle2
      have htz : tzGo (fuel + 1) n = tzGo fuel (n / 2) + 1 := by simp [tzGo, hodd, h0]
      rw [htz]
      refine ⟨?_, ?_⟩
      · rw [Nat.testBit_succ]; exact h1
      · intro j hj
        cases j with
        | zero => simp [Nat.testBit_zero]; omega
        | succ j => rw [Nat.testBit_succ]; exact h2 j (by omega)

theorem tz_spec (n : Nat) (h : n ≠ 0) :
    Nat.testBit n (tz n) = true ∧ ∀ j, j < tz n → Nat.testBit n j = false :=
  tzGo_spec n n h (Nat.le_refl n)

theorem complW_lt (W x : Nat) (hx : x < 2 ^ W) : complW W x < 2 ^ W :=
  Nat.xor_lt_two_pow (by have := Nat.two_pow_pos W; omega) hx

theorem complW_ne_zero {W x : Nat} (hx : x ≠ 2 ^ W - 1) : complW W x ≠ 0 := by
  intro h
  exact hx (Nat.xor_eq_zero.mp h).symm

theorem testBit_complW {W x : Nat} (j : Nat) (hj : j < W) :
    (complW W x).testBit j = !(x.testBit j) := by
  simp [complW, Nat.testBit_xor, Nat.testBit_two_pow_sub_one, hj]

/-- The bit chosen by the allocator on a non-full word value `v` is the
lowest zero bit of `v`: it is in range, it is currently clear, and every
lower bit is set. -/
theorem nextBit_lowest {W v : Nat} (hv : v < 2 ^ W) (hne : v ≠ 2 ^ W - 1) :
    rustTZ W (complW W v) < W ∧
    v.testBit (rustTZ W (complW W v)) = false ∧
    ∀ j, j < rustTZ W (complW W v) → v.testBit j = true := by
  have hc0 : complW W v ≠ 0 := complW_ne_zero hne
  have hrt : rustTZ W (complW W v) = tz (complW W v) := by simp [rustTZ, hc0]
  obtain ⟨h1, h2⟩ := tz_spec (complW W v) hc0
  have hcl : complW W v < 2 ^ W := complW_lt W v hv
  have hbW : tz (complW W v) < W := by
    by_contra hge
    have hfalse : (complW W v).testBit (tz (complW W v)) = false :=
      Nat.testBit_lt_two_pow
        (lt_of_lt_of_le hcl (Nat.pow_le_pow_right (by omega) (by omega)))
    rw [hfalse] at h1
    cases h1
  refine ⟨hrt ▸ hbW, ?_, ?_⟩
  · rw [hrt]
    have hcb := testBit_complW (x := v) (tz (complW W v)) hbW
    rw [h1] at hcb
    cases hb : v.testBit (tz (complW W v)) with
    | false => rfl
    | true => rw [hb] at hcb; cases hcb
  · intro j hj
    rw [hrt] at hj
    have hjW : j < W := lt_trans hj hbW
    have hf := h2 j hj
    have hcb := testBit_complW (x := v) j hjW
    rw [hf] at hcb
    cases hb : v.testBit j with
    | false => rw [hb] at hcb; cases hcb
    | true => rfl

theorem or_bit_lt {W v b : Nat} (hv : v < 2 ^ W) (hb : b < W) :
    v ||| (1 <<< b) < 2 ^ W := by
  rw [Nat.one_shiftLeft]
  exact Nat.or_lt_two_pow hv (Nat.pow_lt_pow_right (by omega) hb)

theorem testBit_or_bit (v b j : Nat) :
    (v ||| (1 <<< b)).testBit j = (v.testBit j || decide (b = j)) := by
  simp [Nat.testBit_lor, Nat.one_shiftLeft, Nat.testBit_two_pow]

theorem testBit_and_compl_bit {W : Nat} (v b j : Nat) (hj : j < W) :
    (v &&& complW W (1 <<< b)).testBit j = (v.testBit j && !decide (b = j)) := by
  simp [Nat.testBit_land, testBit_complW _ hj, Nat.one_shiftLeft, Nat.testBit_two_pow]

theorem getD_set_self (l : List Nat) (i a : Nat) (h : i < l.length) :
    (l.set i a).getD i 0 = a := by
  simp [List.getD_eq_getElem?_getD, List.getElem?_set_self h]

theorem getD_set_ne (l : List Nat) {i j : Nat} (a : Nat) (h : i ≠ j) :
    (l.set i a).getD j 0 = l.getD j 0 := by
  simp [List.getD_eq_getElem?_getD, List.getElem?_set_ne h]

theorem getD_mem {l : List Nat} {w : Nat} (h : w < l.length) : l.getD w 0 ∈ l := by
  rw [List.getD_eq_getElem?_getD, List.getElem?_eq_getElem h]
  exact List.getElem_mem h

theorem mulAdd_div_mod {W w b : Nat} (hW : 0 < W) (hb : b < W) :
    (w * W + b) / W = w ∧ (w * W + b) % W = b := by
  constructor
  · rw [Nat.add_comm, Nat.add_mul_div_right b w hW, Nat.div_eq_of_lt hb, Nat.zero_add]
  · rw [Nat.add_comm, Nat.add_mul_mod_self_right]
    exact Nat.mod_eq_of_lt hb

theorem index_split {W i j : Nat} (_hW : 0 < W) (hne : j ≠ i) :
    j / W ≠ i / W ∨ (j / W = i / W ∧ j % W ≠ i % W) := by
  by_cases h : j / W = i / W
  · refine Or.inr ⟨h, fun hm => hne ?_⟩
    have hj := Nat.div_add_mod j W
    have hi := Nat.div_add_mod i W
    rw [h, hm] at hj
    omega
  · exact Or.inl h

theorem rotOrder_perm (N r : Nat) : (rotateLeftSlice (List.range N) r).Perm (List.range N) := by
  unfold rotateLeftSlice
  exact List.perm_append_comm.trans (by rw [List.take_append_drop])

theorem rotOrder_mem {N r w : Nat} : w ∈ rotateLeftSlice (List.range N) r ↔ w < N := by
  rw [(rotOrder_perm N r).mem_iff, List.mem_range]

theorem rotOrder_nodup (N r : Nat) : (rotateLeftSlice (List.range N) r).Nodup :=
  (rotOrder_perm N r).nodup_iff.mpr (List.nodup_range N)

theorem rotOrder_length (N r : Nat) : (rotateLeftSlice (List.range N) r).length = N := by
  rw [(rotOrder_perm N r).length_eq, List.length_range]

theorem filterMap_set_none {α β : Type} (f : α → Option β) :
    ∀ (l : List α) (t : Nat) (a : α), f a = none →
      (∀ b, l[t]? = some b → f b = none) →
      (l.set t a).filterMap f = l.filterMap f := by
  intro l
  induction l with
  | nil => intro t a _ _; rfl
  | cons x xs ih =>
    intro t a ha hold
    cases t with
    | zero =>
      have hx : f x = none := hold x (by simp)
      simp [List.set, List.filterMap_cons, ha, hx]
    | succ t =>
      have htail : ∀ b, xs[t]? = some b → f b = none := fun b hb => hold b (by simpa using hb)
      simp only [List.set, List.filterMap_cons]
      rw [ih t a ha htail]

theorem filterMap_set_some {α β : Type} (f : α → Option β) :
    ∀ (l : List α) (t : Nat) (a b : α), l[t]? = some b → f b = f a →
      (l.set t a).filterMap f = l.filterMap f := by
  intro l
  induction l with
  | nil => intro t a b hb _; cases hb
  | cons x xs ih =>
    intro t a b hb heq
    cases t with
    | zero =>
      have hx : x = b := by simpa using hb
      subst hx
      simp [List.set, List.filterMap_cons, ← heq]
    | succ t =>
      simp only [List.set, List.filterMap_cons]
      rw [ih t a b (by simpa using hb) heq]

theorem filterMap_set_new {α β : Type} (f : α → Option β) :
    ∀ (l : List α) (t : Nat) (a b : α) (y : β), l[t]? = some b → f b = none → f a = some y →
      ∃ l1 l2, l.filterMap f = l1 ++ l2 ∧ (l.set t a).filterMap f = l1 ++ y :: l2 := by
  intro l
  induction l with
  | nil => intro t a b y hb _ _; cases hb
  | cons x xs ih =>
    intro t a b y hb hbn hay
    cases t with
    | zero =>
      have hx : x = b := by simpa using hb
      subst hx
      refine ⟨[], xs.filterMap f, ?_, ?_⟩
      · simp [List.filterMap_cons, hbn]
      · simp [List.set, List.filterMap_cons, hay]
    | succ t =>
      obtain ⟨l1, l2, h1, h2⟩ := ih t a b y (by simpa using hb) hbn hay
      cases hx : f x with
      | none =>
        refine ⟨l1, l2, ?_, ?_⟩
        · simp [List.filterMap_cons, hx, h1]
        · simp [List.set, List.filterMap_cons, hx, h2]
      | some z =>
        refine ⟨z :: l1, l2, ?_, ?_⟩
        · simp [List.filterMap_cons, hx, h1]
        · simp [List.set, List.filterMap_cons, hx, h2]

theorem filterMap_threadResult_of_done (W : Nat) :
    ∀ l : List ThreadSt, (∀ th ∈ l, isDone th = true) →
      l.filterMap (threadResult W) = l.filterMap doneResult := by
  intro l
  induction l with
  | nil => intro _; rfl
  | cons x xs ih =>
    intro h
    have hx : isDone x = true := h x (List.mem_cons_self x xs)
    have hxs := ih fun th ht => h th (List.mem_cons_of_mem x ht)
    cases x with
    | done r =>
      cases r with
      | none => simpa [List.filterMap_cons, threadResult, doneResult] using hxs
      | some i => simpa [List.filterMap_cons, threadResult, doneResult] using hxs
    | idle => cases hx
    | scanning skip pending => cases hx
    | claimed skip w v => cases hx

theorem claimResults_eq_concResults {W : Nat} {c : Conc} (h : allDone c = true) :
    claimResults W c = concResults c := by
  unfold allDone at h
  rw [List.all_eq_true] at h
  exact filterMap_threadResult_of_done W c.threads h

theorem done_counts :
    ∀ l : List ThreadSt, (∀ th ∈ l, isDone th = true) →
      (l.filter isDoneNone).length + (l.filterMap doneResult).length = l.length := by
  intro l
  induction l with
  | nil => intro _; rfl
  | cons x xs ih =>
    intro h
    have hx : isDone x = true := h x (List.mem_cons_self x xs)
    have hxs := ih fun th ht => h th (List.mem_cons_of_mem x ht)
    cases x with
    | done r =>
      cases r with
      | none =>
        simp [List.filter_cons, List.filterMap_cons, isDoneNone, doneResult]
        omega
      | some i =>
        simp [List.filter_cons, List.filterMap_cons, isDoneNone, doneResult]
        omega
    | idle => cases hx
    | scanning skip pending => cases hx
    | claimed skip w v => cases hx

theorem filterMap_all_some_length {α β : Type} (f : α → Option β) :
    ∀ l : List α, (∀ a ∈ l, (f a).isSome) → (l.filterMap f).length = l.length := by
  intro l
  induction l with
  | nil => intro _; rfl
  | cons x xs ih =>
    intro h
    have hx := h x (List.mem_cons_self x xs)
    have hxs := ih fun a ha => h a (List.mem_cons_of_mem x ha)
    cases hfx : f x with
    | none => rw [hfx] at hx; cases hx
    | some y => simp [List.filterMap_cons, hfx, hxs]

theorem nodup_length_le_of_lt {R : List Nat} (K : Nat) (hnd : R.Nodup)
    (hlt : ∀ i ∈ R, i < K) : R.length ≤ K := by
  have hcard : R.toFinset.card = R.length := List.toFinset_card_of_nodup hnd
  have hsub : R.toFinset ⊆ Finset.range K := by
    intro i hi
    rw [List.mem_toFinset] at hi
    rw [Finset.mem_range]
    exact hlt i hi
  have := Finset.card_le_card hsub
  rw [hcard, Finset.card_range] at this
  exact this

theorem nodup_length_eq_of_iff {R : List Nat} (K : Nat) (hnd : R.Nodup)
    (hiff : ∀ i, i ∈ R ↔ i < K) : R.length = K := by
  have hcard : R.toFinset.card = R.length := List.toFinset_card_of_nodup hnd
  have hset : R.toFinset = Finset.range K := by
    ext i
    rw [List.mem_toFinset, Finset.mem_range]
    exact hiff i
  rw [← hcard, hset, Finset.card_range]

/-- Word values only grow towards full; a word update on a non-full word
preserves every thread-local invariant of the other threads. -/
theorem threadInv_slots_set {W N : Nat} {slots : List Nat} {w x : Nat}
    (hwN : w < N) (hw : slots.getD w 0 ≠ 2 ^ W - 1) :
    ∀ th, ThreadInv W N slots th → ThreadInv W N (slots.set w x) th := by
  intro th hinv
  cases th with
  | idle => trivial
  | scanning skip pending =>
    obtain ⟨hskip, pre, horder, hfull⟩ := hinv
    refine ⟨hskip, pre, horder, ?_⟩
    intro u hu
    have hne : w ≠ u := fun he => hw (he ▸ hfull u hu)
    rw [getD_set_ne _ x hne]
    exact hfull u hu
  | claimed skip w2 v => exact hinv
  | done r =>
    cases r with
    | none => exact absurd (hinv w hwN) hw
    | some i => trivial

/-- One step of any thread preserves the global invariant. -/
theorem concInv_step {W N C : Nat} {c : Conc} (inv : ConcInv W N C c) (t : Nat) :
    ConcInv W N C (concStep W c t) := by
  cases hth : c.threads[t]? with
  | none => simpa only [concStep, hth] using inv
  | some th =>
    have hthmem : th ∈ c.threads := List.getElem?_mem hth
    cases th with
    | idle =>
      simp only [concStep, hth]
      have hR : claimResults W { c with threads := c.threads.set t (ThreadSt.scanning c.rot (rotateLeftSlice (List.range c.slots.length) c.rot)) } = claimResults W c := by
        unfold claimResults
        exact filterMap_set_none _ _ _ _ rfl (fun b hb => by rw [hth] at hb; cases hb; rfl)
      refine ⟨by simp [inv.slotsLen], by simp [inv.threadsLen], inv.slotsLt, inv.rotLt,
        ?_, by rw [hR]; exact inv.resNodup, by rw [hR]; exact inv.resIff⟩
      intro th2 h2
      rcases List.mem_or_eq_of_mem_set h2 with hold | hnew
      · exact inv.threadOk th2 hold
      · subst hnew
        exact ⟨inv.rotLt, [], by rw [inv.slotsLen, List.nil_append],
          fun w hw => absurd hw (List.not_mem_nil w)⟩
    | scanning skip pending =>
      obtain ⟨hskip, pre, horder, hpre⟩ := inv.threadOk _ hthmem
      cases pending with
      | nil =>
        simp only [concStep, hth]
        have hR : claimResults W { c with threads := c.threads.set t (ThreadSt.done none) } = claimResults W c := by
          unfold claimResults
          exact filterMap_set_none _ _ _ _ rfl (fun b hb => by rw [hth] at hb; cases hb; rfl)
        refine ⟨by simp [inv.slotsLen], by simp [inv.threadsLen], inv.slotsLt, inv.rotLt,
          ?_, by rw [hR]; exact inv.resNodup, by rw [hR]; exact inv.resIff⟩
        intro th2 h2
        rcases List.mem_or_eq_of_mem_set h2 with hold | hnew
        · exact inv.threadOk th2 hold
        · subst hnew
          intro w hwN
          have hmem : w ∈ rotateLeftSlice (List.range N) skip := rotOrder_mem.mpr hwN
          rw [horder, List.append_nil] at hmem
          exact hpre w hmem
      | cons w rest =>
        have hwO : w ∈ rotateLeftSlice (List.range N) skip := by
          rw [horder]
          exact List.mem_append.mpr (Or.inr (List.mem_cons_self w rest))
        have hwN : w < N := rotOrder_mem.mp hwO
        have hwlen : w < c.slots.length := by rw [inv.slotsLen]; exact hwN
        by_cases hfull : c.slots.getD w 0 = 2 ^ W - 1
        · simp only [concStep, hth, hfull, if_pos]
          have hR : claimResults W { c with threads := c.threads.set t (ThreadSt.scanning skip rest) } = claimResults W c := by
            unfold claimResults
            exact filterMap_set_none _ _ _ _ rfl (fun b hb => by rw [hth] at hb; cases hb; rfl)
          refine ⟨by simp [inv.slotsLen], by simp [inv.threadsLen], inv.slotsLt, inv.rotLt,
            ?_, by rw [hR]; exact inv.resNodup, by rw [hR]; exact inv.resIff⟩
          intro th2 h2
          rcases List.mem_or_eq_of_mem_set h2 with hold | hnew
          · exact inv.threadOk th2 hold
          · subst hnew
            refine ⟨hskip, pre ++ [w], ?_, ?_⟩
            · rw [horder, List.append_cons]
            · intro u hu
              rcases List.mem_append.mp hu with hu1 | hu2
              · exact hpre u hu1
              · rw [List.mem_singleton.mp hu2]
                exact hfull
        · simp only [concStep, hth, hfull, if_neg, ite_false]
          set v := c.slots.getD w 0 with hv
          have hvlt : v < 2 ^ W := inv.slotsLt _ (getD_mem hwlen)
          obtain ⟨hbW, hbit0, hlow⟩ := nextBit_lowest hvlt hfull
          set b := rustTZ W (complW W v) with hb
          have hW0 : 0 < W := by omega
          obtain ⟨hdiv, hmod⟩ := mulAdd_div_mod hW0 hbW
          have hidxlt : w * W + b < N * W := by
            have h1 : w * W + b < (w + 1) * W := by rw [Nat.succ_mul]; omega
            have h2 : (w + 1) * W ≤ N * W := Nat.mul_le_mul_right W (by omega)
            omega
          obtain ⟨l1, l2, holdR, hnewR⟩ :=
            filterMap_set_new (threadResult W) c.threads t (ThreadSt.claimed skip w v) _
              (w * W + b) hth rfl rfl
          have holdR2 : claimResults W c = l1 ++ l2 := holdR
          have hidxnot : (w * W + b) ∉ l1 ++ l2 := by
            intro hmem
            have hres := (inv.resIff (w * W + b)).mp (by rw [holdR2]; exact hmem)
            have hbitAt : bitAt W c.slots (w * W + b) = false := by
              unfold bitAt
              rw [hdiv, hmod, ← hv]
              exact hbit0
            rw [hbitAt] at hres
            cases hres.2
          have hnewR2 : claimResults W { c with slots := c.slots.set w (v ||| (1 <<< b)), threads := c.threads.set t (ThreadSt.claimed skip w v) } = l1 ++ (w * W + b) :: l2 := hnewR
          refine ⟨by simp [inv.slotsLen], by simp [inv.threadsLen], ?_, inv.rotLt, ?_, ?_, ?_⟩
          · intro u hu
            rcases List.mem_or_eq_of_mem_set hu with hold | hnew2
            · exact inv.slotsLt u hold
            · rw [hnew2]; exact or_bit_lt hvlt hbW
          · intro th2 h2
            rcases List.mem_or_eq_of_mem_set h2 with hold | hnew2
            · exact threadInv_slots_set hwN hfull th2 (inv.threadOk th2 hold)
            · subst hnew2
              exact ⟨hskip, hwN, hvlt, hfull⟩
          · rw [hnewR2, List.nodup_middle, List.nodup_cons]
            exact ⟨hidxnot, holdR2 ▸ inv.resNodup⟩
          · intro i
            rw [hnewR2]
            have hmemnew : i ∈ l1 ++ (w * W + b) :: l2 ↔ (i = w * W + b ∨ i ∈ l1 ++ l2) := by
              simp only [List.mem_append, List.mem_cons]
              tauto
            rw [hmemnew]
            by_cases hi : i = w * W + b
            · subst hi
              simp only [true_or, true_iff]
              refine ⟨hidxlt, ?_⟩
              show bitAt W (c.slots.set w (v ||| (1 <<< b))) (w * W + b) = true
              unfold bitAt
              rw [hdiv, hmod, getD_set_self _ _ _ hwlen, testBit_or_bit]
              simp
            · have hsame : bitAt W (c.slots.set w (v ||| (1 <<< b))) i = bitAt W c.slots i := by
                unfold bitAt
                rcases index_split (i := w * W + b) hW0 hi with hcase | ⟨heq, hne⟩
                · rw [hdiv] at hcase
                  rw [getD_set_ne _ _ (Ne.symm hcase)]
                · rw [hdiv] at heq
                  rw [hmod] at hne
                  rw [heq, getD_set_self _ _ _ hwlen, ← hv, testBit_or_bit]
                  simp [Ne.symm hne]
            
              show _ ↔ i < N * W ∧ bitAt W (c.slots.set w (v ||| (1 <<< b))) i = true
              rw [hsame]
              have hrec := inv.resIff i
              rw [holdR2] at hrec
              constructor
              · intro hcase
                rcases hcase with hcase | hcase
                · exact absurd hcase hi
                · exact hrec.mp hcase
              · intro hcase
                exact Or.inr (hrec.mpr hcase)
    | claimed skip w v =>
      obtain ⟨hskip, hwN, hvlt, hvfull⟩ := inv.threadOk _ hthmem
      simp only [concStep, hth]
      have hR : claimResults W { c with rot := if (skip != w) = true then w else c.rot, threads := c.threads.set t (ThreadSt.done (some (w * W + rustTZ W (complW W v)))) } = claimResults W c := by
        unfold claimResults
        exact filterMap_set_some _ _ _ _ _ hth rfl
      refine ⟨by simp [inv.slotsLen], by simp [inv.threadsLen], inv.slotsLt, ?_,
        ?_, by rw [hR]; exact inv.resNodup, by rw [hR]; exact inv.resIff⟩
      · cases hsw : skip != w with
        | true => simpa [hsw] using hwN
        | false => simpa [hsw] using inv.rotLt
      · intro th2 h2
        rcases List.mem_or_eq_of_mem_set h2 with hold | hnew
        · exact inv.threadOk th2 hold
        · subst hnew; trivial
    | done r => simpa only [concStep, hth] using inv

theorem filterMap_threadResult_replicate_idle (W C : Nat) :
    (List.replicate C ThreadSt.idle).filterMap (threadResult W) = [] := by
  induction C with
  | zero => rfl
  | succ n ih => simp [List.replicate_succ, List.filterMap_cons, threadResult, ih]

theorem getD_replicate_zero (N k : Nat) : (List.replicate N (0 : Nat)).getD k 0 = 0 := by
  rw [List.getD_eq_getElem?_getD, List.getElem?_replicate]
  by_cases h : k < N
  · simp [h]
  · simp [h]

/-- The initial configuration satisfies the global invariant. -/
theorem concInv_init {W N C : Nat} (hN : 0 < N) : ConcInv W N C (concInit N C) := by
  refine ⟨by simp [concInit], by simp [concInit], ?_, ?_, ?_, ?_, ?_⟩
  · intro v hv
    rw [List.eq_of_mem_replicate hv]
    exact Nat.two_pow_pos W
  · exact hN
  · intro th hth
    rw [List.eq_of_mem_replicate hth]
    trivial
  · show ((List.replicate C ThreadSt.idle).filterMap (threadResult W)).Nodup
    rw [filterMap_threadResult_replicate_idle]
    exact List.nodup_nil
  · intro i
    show i ∈ (List.replicate C ThreadSt.idle).filterMap (threadResult W) ↔ _
    rw [filterMap_threadResult_replicate_idle]
    constructor
    · intro h
      cases h
    · intro ⟨_, hbit⟩
      unfold bitAt at hbit
      rw [show (concInit N C).slots = List.replicate N 0 from rfl] at hbit
      rw [getD_replicate_zero, Nat.zero_testBit] at hbit
      cases hbit

/-- Any schedule preserves the global invariant. -/
theorem concInv_run {W N C : Nat} {c : Conc} (inv : ConcInv W N C c) :
    ∀ sched, ConcInv W N C (concRun W c sched) := by
  intro sched
  induction sched generalizing c with
  | nil => exact inv
  | cons s rest ih => exact ih (concInv_step inv s)

theorem filterMap_sublist_of_imp {α β : Type} (f g : α → Option β)
    (h : ∀ a b, f a = some b → g a = some b) :
    ∀ l : List α, (l.filterMap f).Sublist (l.filterMap g) := by
  intro l
  induction l with
  | nil => exact List.Sublist.refl _
  | cons x xs ih =>
    cases hfx : f x with
    | none =>
      cases hgx : g x with
      | none => simpa [List.filterMap_cons, hfx, hgx] using ih
      | some z =>
        simp only [List.filterMap_cons, hfx, hgx]
        exact ih.cons z
    | some b =>
      have hgb := h x b hfx
      simp only [List.filterMap_cons, hfx, hgb]
      exact ih.cons₂ b

/-- The indices of the threads that already returned successfully form a
sublist of all committed indices (which also count claimed-but-not-yet
returned threads). -/
theorem concResults_sublist_claimResults (W : Nat) (c : Conc) :
    (concResults c).Sublist (claimResults W c) := by
  unfold concResults claimResults
  refine filterMap_sublist_of_imp doneResult (threadResult W) ?_ c.threads
  intro a b hab
  cases a with
  | done r =>
    cases r with
    | some i =>
      simp [doneResult] at hab
      subst hab
      rfl
    | none => simp [doneResult] at hab
  | idle => simp [doneResult] at hab
  | scanning skip pending => simp [doneResult] at hab
  | claimed skip w v => simp [doneResult] at hab

/-- C1: no two successful `set_next_free_bit` / `next_id` calls ever
return the same index: for any number `C` of concurrent callers, any word
count `N` and any interleaving, in every reachable configuration the
indices returned by the successful calls are pairwise distinct, and they
all lie below the capacity `K = N * W`.  In particular, in the
oversubscribed scenario — once all of `C > K` one-call threads have
finished — exactly `K` calls succeeded, their indices cover exactly the
interval `[0, K)`, and exactly `C - K` calls returned empty. -/
theorem allocator_concurrent_unique_ids (W N C : Nat) (sched : List Nat)
    (hW : 0 < W) (hN : 0 < N) :
    (concResults (concRun W (concInit N C) sched)).Nodup ∧
    (∀ i, i ∈ concResults (concRun W (concInit N C) sched) → i < N * W) ∧
    (allDone (concRun W (concInit N C) sched) = true → N * W < C →
      (∀ i, i ∈ concResults (concRun W (concInit N C) sched) ↔ i < N * W) ∧
      (concResults (concRun W (concInit N C) sched)).length = N * W ∧
      ((concRun W (concInit N C) sched).threads.filter isDoneNone).length = C - N * W) := by
  have inv : ConcInv W N C (concRun W (concInit N C) sched) :=
    concInv_run (concInv_init hN) sched
  set cfg := concRun W (concInit N C) sched with hcfg
  have hsubl : (concResults cfg).Sublist (claimResults W cfg) :=
    concResults_sublist_claimResults W cfg
  refine ⟨hsubl.nodup inv.resNodup, ?_, ?_⟩
  · intro i hi
    exact ((inv.resIff i).mp (hsubl.subset hi)).1
  · intro hdone hC
    have hRC : claimResults W cfg = concResults cfg := claimResults_eq_concResults hdone
    have hdone2 : ∀ th ∈ cfg.threads, isDone th = true := by
      unfold allDone at hdone
      rw [List.all_eq_true] at hdone
      exact hdone
    by_cases hnone : ∃ th ∈ cfg.threads, th = ThreadSt.done none
    · obtain ⟨th0, hmem0, heq0⟩ := hnone
      have hallfull : ∀ w, w < N → cfg.slots.getD w 0 = 2 ^ W - 1 := by
        have hinv0 := inv.threadOk th0 hmem0
        rw [heq0] at hinv0
        exact hinv0
      have hcover : ∀ i, i ∈ concResults cfg ↔ i < N * W := by
        intro i
        rw [← hRC, inv.resIff i]
        constructor
        · exact fun h => h.1
        · intro hi
          refine ⟨hi, ?_⟩
          unfold bitAt
          have hiW : i / W < N := by
            rw [Nat.div_lt_iff_lt_mul hW]
            exact hi
          rw [hallfull _ hiW, Nat.testBit_two_pow_sub_one]
          simp [Nat.mod_lt i hW]
      have hnd : (concResults cfg).Nodup := hRC ▸ inv.resNodup
      have hlen : (concResults cfg).length = N * W := nodup_length_eq_of_iff _ hnd hcover
      refine ⟨hcover, hlen, ?_⟩
      have hcnt := done_counts cfg.threads hdone2
      have hlen2 : (cfg.threads.filterMap doneResult).length = N * W := hlen
      have hC2 : cfg.threads.length = C := inv.threadsLen
      omega
    · push_neg at hnone
      have hsome : ∀ th ∈ cfg.threads, (doneResult th).isSome := by
        intro th hth
        have hd := hdone2 th hth
        cases th with
        | done r =>
          cases r with
          | none => exact absurd rfl (hnone _ hth)
          | some i => simp [doneResult]
        | idle => cases hd
        | scanning skip pending => cases hd
        | claimed skip w v => cases hd
      have hlenC : (concResults cfg).length = C := by
        show (cfg.threads.filterMap doneResult).length = C
        rw [filterMap_all_some_length _ _ hsome, inv.threadsLen]
      have hnd : (concResults cfg).Nodup := hRC ▸ inv.resNodup
      have hsub : ∀ i ∈ concResults cfg, i < N * W := by
        intro i hi
        rw [← hRC] at hi
        exact ((inv.resIff i).mp hi).1
      have hle := nodup_length_le_of_lt (N * W) hnd hsub
      exact absurd (hlenC ▸ hle) (by omega)

/-- Witness for C1: one word of one bit, two threads, a concrete
interleaving; one thread gets index 0, the other returns empty. -/
theorem allocator_concurrent_unique_ids_witness :
    (0 < 1 ∧ 0 < 1) ∧
    ((concResults (concRun 1 (concInit 1 2) [0, 0, 0, 1, 1, 1])).Nodup ∧
     (∀ i, i ∈ concResults (concRun 1 (concInit 1 2) [0, 0, 0, 1, 1, 1]) → i < 1 * 1) ∧
     (allDone (concRun 1 (concInit 1 2) [0, 0, 0, 1, 1, 1]) = true → 1 * 1 < 2 →
       (∀ i, i ∈ concResults (concRun 1 (concInit 1 2) [0, 0, 0, 1, 1, 1]) ↔ i < 1 * 1) ∧
       (concResults (concRun 1 (concInit 1 2) [0, 0, 0, 1, 1, 1])).length = 1 * 1 ∧
       ((concRun 1 (concInit 1 2) [0, 0, 0, 1, 1, 1]).threads.filter isDoneNone).length =
         2 - 1 * 1)) :=
  ⟨⟨by decide, by decide⟩,
    allocator_concurrent_unique_ids 1 1 2 [0, 0, 0, 1, 1, 1] (by decide) (by decide)⟩

set_option maxRecDepth 100000

/-- C2: the sequential scenario on a 128-bit (2 slots of 64 bits)
allocator: `set 0` reports previously unset; `next_id` returns 1; `set 2`
reports previously unset; the next three `next_id` calls return 3, 4, 5;
`remove 4` reports previously set and `has 4` becomes false; the next
`next_id` returns 4 again (the freed index is reused before any higher
index); draining returns 122 further ids, and together with all earlier
indices exactly the 128 distinct indices `[0, 128)` are produced; then
`next_id` returns `None`, `total_ids` is 128, and after `clear` it is 0.
Intermediate states are spelled out explicitly and checked by evaluation. -/
theorem sequential_scenario_capacity_128 :
    idSetSet 64 [0, 0] 0 = (some false, [1, 0]) ∧
    nextId 64 ⟨[1, 0], 0⟩ = (some 1, ⟨[3, 0], 0⟩) ∧
    idSetSet 64 [3, 0] 2 = (some false, [7, 0]) ∧
    nextId 64 ⟨[7, 0], 0⟩ = (some 3, ⟨[15, 0], 0⟩) ∧
    nextId 64 ⟨[15, 0], 0⟩ = (some 4, ⟨[31, 0], 0⟩) ∧
    nextId 64 ⟨[31, 0], 0⟩ = (some 5, ⟨[63, 0], 0⟩) ∧
    idSetRemove 64 [63, 0] 4 = (some true, [47, 0]) ∧
    idSetHas 64 [47, 0] 4 = false ∧
    nextId 64 ⟨[47, 0], 0⟩ = (some 4, ⟨[63, 0], 0⟩) ∧
    (nextIds 64 130 ⟨[63, 0], 0⟩).1.length = 122 ∧
    (let allIdx := [0, 2] ++ [1, 3, 4, 5, 4] ++ (nextIds 64 130 ⟨[63, 0], 0⟩).1
     allIdx.dedup.length = 128 ∧
     allIdx.all (fun i => i < 128) = true ∧
     (List.range 128).all (fun i => allIdx.contains i) = true) ∧
    (nextId 64 (nextIds 64 130 ⟨[63, 0], 0⟩).2).1 = none ∧
    idSetTotal 64 (nextIds 64 130 ⟨[63, 0], 0⟩).2.slots = 128 ∧
    idSetTotal 64 (idSetClear (nextIds 64 130 ⟨[63, 0], 0⟩).2.slots) = 0 := by
  decide

/-- C3: when the allocator succeeds on a word, the claimed bit is the
lowest-numbered zero bit of the value the successful compare-and-swap saw
(every lower bit is set, the claimed bit is clear), the word is updated by
setting exactly that bit, the returned global index is
`word_index * W + offset`, and the rotation cursor is stored with the
succeeding word index exactly when it differs from the cursor value read
at the start of the call. -/
theorem allocator_claims_lowest_zero_bit (W : Nat) (c c2 : Conc) (t skip w v2 : Nat)
    (rest : List Nat)
    (hth : c.threads[t]? = some (ThreadSt.scanning skip (w :: rest)))
    (hnf : c.slots.getD w 0 ≠ 2 ^ W - 1) (hlt : c.slots.getD w 0 < 2 ^ W)
    (hth2 : c2.threads[t]? = some (ThreadSt.claimed skip w v2)) :
    (c.slots.getD w 0).testBit (rustTZ W (complW W (c.slots.getD w 0))) = false ∧
    (∀ j, j < rustTZ W (complW W (c.slots.getD w 0)) → (c.slots.getD w 0).testBit j = true) ∧
    (concStep W c t).slots = c.slots.set w (c.slots.getD w 0 ||| (1 <<< rustTZ W (complW W (c.slots.getD w 0)))) ∧
    (concStep W c t).threads = c.threads.set t (ThreadSt.claimed skip w (c.slots.getD w 0)) ∧
    (concStep W c2 t).threads = c2.threads.set t (ThreadSt.done (some (w * W + rustTZ W (complW W v2)))) ∧
    (w ≠ skip → (concStep W c2 t).rot = w) ∧
    (w = skip → (concStep W c2 t).rot = c2.rot) := by
  obtain ⟨hbW, hbit0, hlow⟩ := nextBit_lowest hlt hnf
  refine ⟨hbit0, fun j hj => hlow j hj, ?_, ?_, ?_, ?_, ?_⟩
  · simp only [concStep, hth, hnf, ite_false, if_neg]
  · simp only [concStep, hth, hnf, ite_false, if_neg]
  · simp only [concStep, hth2]
  · intro hne
    simp only [concStep, hth2]
    rw [if_pos (by simp [bne_iff_ne]; exact Ne.symm hne)]
  · intro heq
    simp only [concStep, hth2]
    rw [if_neg (by simp [bne_iff_ne]; exact heq.symm)]

/-- Witness for C3: a one-word configuration whose word value is 1, so the
claimed bit is bit 1; and a claimed thread about to return and store the
cursor. -/
theorem allocator_claims_lowest_zero_bit_witness :
    ((⟨[1], 0, [ThreadSt.scanning 0 [0]]⟩ : Conc).threads[0]? =
        some (ThreadSt.scanning 0 [0]) ∧
      (⟨[1], 0, [ThreadSt.scanning 0 [0]]⟩ : Conc).slots.getD 0 0 ≠ 2 ^ 2 - 1 ∧
      (⟨[1], 0, [ThreadSt.scanning 0 [0]]⟩ : Conc).slots.getD 0 0 < 2 ^ 2) ∧
    ((1 : Nat).testBit (rustTZ 2 (complW 2 1)) = false ∧
      (∀ j, j < rustTZ 2 (complW 2 1) → (1 : Nat).testBit j = true) ∧
      (concStep 2 ⟨[1], 0, [ThreadSt.scanning 0 [0]]⟩ 0).slots =
        [1].set 0 (1 ||| (1 <<< rustTZ 2 (complW 2 1))) ∧
      (concStep 2 ⟨[1], 0, [ThreadSt.scanning 0 [0]]⟩ 0).threads =
        [ThreadSt.scanning 0 [0]].set 0 (ThreadSt.claimed 0 0 1) ∧
      (concStep 2 ⟨[3], 0, [ThreadSt.claimed 0 0 1]⟩ 0).threads =
        [ThreadSt.claimed 0 0 1].set 0 (ThreadSt.done (some (0 * 2 + rustTZ 2 (complW 2 1)))) ∧
      ((0 : Nat) ≠ 0 → (concStep 2 ⟨[3], 0, [ThreadSt.claimed 0 0 1]⟩ 0).rot = 0) ∧
      ((0 : Nat) = 0 → (concStep 2 ⟨[3], 0, [ThreadSt.claimed 0 0 1]⟩ 0).rot =
        (⟨[3], 0, [ThreadSt.claimed 0 0 1]⟩ : Conc).rot)) :=
  ⟨⟨by decide, by decide, by decide⟩,
    allocator_claims_lowest_zero_bit 2 ⟨[1], 0, [ThreadSt.scanning 0 [0]]⟩
      ⟨[3], 0, [ThreadSt.claimed 0 0 1]⟩ 0 0 0 1 [] (by decide) (by decide) (by decide)
      (by decide)⟩

theorem nextIdGo_rot_lt {W skip N : Nat} :
    ∀ (pending : List Nat) (st : AllocState), st.rot < N → (∀ u ∈ pending, u < N) →
      ((nextIdGo W skip st pending).2).rot < N := by
  intro pending
  induction pending with
  | nil => intro st h _; exact h
  | cons w rest ih =>
    intro st h hmem
    by_cases hfull : st.slots.getD w 0 = 2 ^ W - 1
    · simp only [nextIdGo, hfull, ite_true, if_pos]
      exact ih st h fun u hu => hmem u (List.mem_cons_of_mem w hu)
    · simp only [nextIdGo, hfull, ite_false, if_neg]
      cases hsw : skip != w with
      | true => simpa [hsw] using hmem w (List.mem_cons_self w rest)
      | false => simpa [hsw] using h

theorem nextIdGo_slots_len {W skip : Nat} :
    ∀ (pending : List Nat) (st : AllocState),
      ((nextIdGo W skip st pending).2).slots.length = st.slots.length := by
  intro pending
  induction pending with
  | nil => intro st; rfl
  | cons w rest ih =>
    intro st
    by_cases hfull : st.slots.getD w 0 = 2 ^ W - 1
    · simp only [nextIdGo, hfull, ite_true, if_pos]
      exact ih st
    · simp only [nextIdGo, hfull, ite_false, if_neg, List.length_set]

/-- C8: the rotation cursor is always strictly below the slot count `N`
when `N > 0`.  Concurrently: in every configuration reachable by any
schedule from the initial state the cursor is below `N` (so the
`split_at` inside the scan is in bounds and never panics).  The rotated
scan order obtained from any such cursor has length `N`, no duplicates,
and contains exactly the word indices below `N` — each scan visits every
word exactly once.  Sequentially, one `next_id` call preserves the cursor
bound and the slot count. -/
theorem rotation_cursor_always_in_bounds (W N C r : Nat) (sched : List Nat) (st : AllocState)
    (hN : 0 < N) (_hr : r < N) (hst : st.rot < st.slots.length) :
    (concRun W (concInit N C) sched).rot < N ∧
    (concRun W (concInit N C) sched).slots.length = N ∧
    (rotateLeftSlice (List.range N) r).length = N ∧
    (rotateLeftSlice (List.range N) r).Nodup ∧
    (∀ w, w ∈ rotateLeftSlice (List.range N) r ↔ w < N) ∧
    ((nextId W st).2).rot < st.slots.length ∧
    ((nextId W st).2).slots.length = st.slots.length := by
  have inv : ConcInv W N C (concRun W (concInit N C) sched) :=
    concInv_run (concInv_init hN) sched
  refine ⟨inv.rotLt, inv.slotsLen, rotOrder_length N r, rotOrder_nodup N r,
    fun w => rotOrder_mem, ?_, ?_⟩
  · exact nextIdGo_rot_lt _ st hst fun u hu => rotOrder_mem.mp hu
  · exact nextIdGo_slots_len _ st

/-- Witness for C8 at one word, one thread, the empty schedule, and a
fresh sequential allocator state. -/
theorem rotation_cursor_always_in_bounds_witness :
    (0 < 1 ∧ 0 < 1 ∧ (⟨[0], 0⟩ : AllocState).rot < (⟨[0], 0⟩ : AllocState).slots.length) ∧
    ((concRun 1 (concInit 1 1) []).rot < 1 ∧
     (concRun 1 (concInit 1 1) []).slots.length = 1 ∧
     (rotateLeftSlice (List.range 1) 0).length = 1 ∧
     (rotateLeftSlice (List.range 1) 0).Nodup ∧
     (∀ w, w ∈ rotateLeftSlice (List.range 1) 0 ↔ w < 1) ∧
     ((nextId 1 ⟨[0], 0⟩).2).rot < (⟨[0], 0⟩ : AllocState).slots.length ∧
     ((nextId 1 ⟨[0], 0⟩).2).slots.length = (⟨[0], 0⟩ : AllocState).slots.length) :=
  ⟨⟨by decide, by decide, by decide⟩,
    rotation_cursor_always_in_bounds 1 1 1 0 [] ⟨[0], 0⟩ (by decide) (by decide) (by decide)⟩

/-- C4 (code bug): at width 128 (u128 words on a 64-bit platform) with
index `2 ^ 71`, the computed slot index `2 ^ 71 / 128 = 2 ^ 64` does not
fit `usize`, so `usize::try_from(...).unwrap()` inside `insert` aborts
(result `none` in the model) instead of returning the recoverable
`Err(slot index)` promised by the documentation; `remove` at the very same
index uses `.ok()?` and does return its recoverable `None`. -/
theorem slice_insert_u128_index_aborts :
    (sliceInsert 128 [] (2 ^ 71)).1 = none ∧
    (sliceRemove 128 [] (2 ^ 71)).1 = none ∧ (sliceRemove 128 [] (2 ^ 71)).2 = [] ∧
    (sliceInsert 64 [] 64).1 = some (Except.error 1) := by
  decide

/-- C5 counterexample: on the growable Vec backing at width 128, inserting
index `2 ^ 71` into the empty vector aborts in the inner slice insert (the
`unwrap` on the slot-index conversion): the call neither returns the
previous bit value nor extends the vector, so the insert does not succeed
for every index. -/
theorem vec_insert_huge_u128_index_counterexample :
    (vecInsert 128 [] (2 ^ 71)).1 = none ∧ (vecInsert 128 [] (2 ^ 71)).2 = [] := by
  decide

/-- C5 (amended): for every index whose slot index `i / W` fits `usize` —
which is every index for the widths of at most 64 bits — insert on the
growable Vec backing never surfaces an out-of-range error: when the word
`i / W` is missing the vector is extended with zero words so that it
exists, the insert is retried, and the (possibly retried) insert succeeds,
returning the previous bit value. -/
theorem vec_insert_resizes_and_succeeds (W : Nat) (v : List Nat) (i : Nat)
    (hfit : i / W < 2 ^ usizeBits) :
    (vecInsert W v i).1 = some (Except.ok (v.getD (i / W) 0 &&& (1 <<< (i % W)) != 0)) ∧
    i / W < (vecInsert W v i).2.length := by
  have htry : tryFromUsize (i / W) = some (i / W) := by simp [tryFromUsize, hfit]
  cases hget : v[i / W]? with
  | some slot =>
    have hlt : i / W < v.length := by
      by_contra hge
      rw [List.getElem?_eq_none (by omega)] at hget
      cases hget
    have hgd : v.getD (i / W) 0 = slot := by
      rw [List.getD_eq_getElem?_getD, hget]
      rfl
    have hs : sliceInsert W v i = (some (Except.ok (slot &&& (1 <<< (i % W)) != 0)), v.set (i / W) (slot ||| (1 <<< (i % W)))) := by
      simp [sliceInsert, htry, hget]
    have hv : vecInsert W v i = (some (Except.ok (slot &&& (1 <<< (i % W)) != 0)), v.set (i / W) (slot ||| (1 <<< (i % W)))) := by
      unfold vecInsert
      rw [hs]
    refine ⟨?_, ?_⟩
    · rw [hv, hgd]
    · rw [hv]
      simpa [List.length_set] using hlt
  | none =>
    have hge : v.length ≤ i / W := by
      by_contra hlt2
      rw [List.getElem?_eq_getElem (by omega)] at hget
      cases hget
    have hgd : v.getD (i / W) 0 = 0 := by
      rw [List.getD_eq_getElem?_getD, hget]
      rfl
    have hs : sliceInsert W v i = (some (Except.error (i / W)), v) := by
      simp [sliceInsert, htry, hget]
    have hres : rustResize v (i / W + 1) 0 = v ++ List.replicate (i / W + 1 - v.length) 0 := by
      unfold rustResize
      rw [if_neg (by omega)]
    have hget2 : (v ++ List.replicate (i / W + 1 - v.length) 0)[i / W]? = some 0 := by
      rw [List.getElem?_append_right hge, List.getElem?_replicate, if_pos (by omega)]
    have hs2 : sliceInsert W (v ++ List.replicate (i / W + 1 - v.length) 0) i = (some (Except.ok ((0 : Nat) &&& (1 <<< (i % W)) != 0)), (v ++ List.replicate (i / W + 1 - v.length) 0).set (i / W) (0 ||| (1 <<< (i % W)))) := by
      simp [sliceInsert, htry, hget2]
    have hv : vecInsert W v i = (some (Except.ok ((0 : Nat) &&& (1 <<< (i % W)) != 0)), (v ++ List.replicate (i / W + 1 - v.length) 0).set (i / W) (0 ||| (1 <<< (i % W)))) := by
      unfold vecInsert
      rw [hs]
      show sliceInsert W (rustResize v (i / W + 1) 0) i = _
      rw [hres, hs2]
    refine ⟨?_, ?_⟩
    · rw [hv, hgd]
    · rw [hv]
      simp [List.length_set, List.length_append, List.length_replicate]
      omega

/-- Witness for C5: width 16, empty vector, index 40: the vector grows to
3 words and the insert returns previous bit `false`. -/
theorem vec_insert_resizes_and_succeeds_witness :
    (40 / 16 < 2 ^ usizeBits) ∧
    ((vecInsert 16 [] 40).1 =
      some (Except.ok (([] : List Nat).getD (40 / 16) 0 &&& (1 <<< (40 % 16)) != 0)) ∧
     40 / 16 < (vecInsert 16 [] 40).2.length) :=
  ⟨by decide, vec_insert_resizes_and_succeeds 16 [] 40 (by decide)⟩

/-- C6 counterexample: `Vec::clear` removes every element, so on the
one-word vector `[5]` the word count changes from 1 to 0 — `clear` on the
growable backing does not leave the number of words unchanged. -/
theorem vec_clear_changes_word_count :
    (vecClear [5]).length ≠ ([5] : List Nat).length := by
  decide

theorem map_zero_eq_replicate (s : List Nat) :
    (s.map fun _ => (0 : Nat)) = List.replicate s.length 0 :=
  List.map_const' s 0

theorem sliceSize_replicate_zero (W n : Nat) :
    sliceSize W (List.replicate n 0) = 0 := by
  induction n with
  | zero => rfl
  | succ n ih => simpa [sliceSize, List.replicate_succ, popCount, popCountGo] using ih

theorem sliceIsEmpty_replicate_zero (n : Nat) :
    sliceIsEmpty (List.replicate n 0) = true := by
  rw [sliceIsEmpty, List.all_eq_true]
  intro x hx
  rw [List.eq_of_mem_replicate hx]
  rfl

/-- C6 (amended): `clear` on the fixed slice backing (and likewise the
atomic-word and `IdSet` variants, whose bodies are identical) stores 0 into
every word and keeps the word count; `clear` on the growable Vec backing
instead removes all words (the length becomes 0).  In every case,
afterwards `size` / `total_ids` is 0 and `is_empty` holds. -/
theorem clear_zeroes_slice_but_empties_vec (W : Nat) (s v : List Nat) :
    sliceClear s = List.replicate s.length 0 ∧
    (sliceClear s).length = s.length ∧
    sliceIsEmpty (sliceClear s) = true ∧
    sliceSize W (sliceClear s) = 0 ∧
    idSetClear s = List.replicate s.length 0 ∧
    idSetTotal W (idSetClear s) = 0 ∧
    sharedClear s = List.replicate s.length 0 ∧
    vecClear v = [] ∧
    sliceIsEmpty (vecClear v) = true ∧
    sliceSize W (vecClear v) = 0 := by
  have hmap := map_zero_eq_replicate s
  refine ⟨hmap, ?_, ?_, ?_, hmap, ?_, hmap, rfl, rfl, rfl⟩
  · rw [show sliceClear s = s.map fun _ => 0 from rfl, List.length_map]
  · rw [show sliceClear s = s.map fun _ => 0 from rfl, hmap]
    exact sliceIsEmpty_replicate_zero s.length
  · rw [show sliceClear s = s.map fun _ => 0 from rfl, hmap]
    exact sliceSize_replicate_zero W s.length
  · rw [show idSetClear s = s.map fun _ => 0 from rfl, hmap]
    exact sliceSize_replicate_zero W s.length

/-- C7 counterexample: `capacity` computes `len as $ty * BITS as $ty` in
the element type, which wraps: at width 32 with `2 ^ 27` words the
mathematical product is `2 ^ 32`, but `capacity` returns 0. -/
theorem capacity_wraps_counterexample :
    sliceCapacity 32 (List.replicate (2 ^ 27) 0) = 0 ∧
    (List.replicate (2 ^ 27) (0 : Nat)).length * 32 = 2 ^ 32 ∧
    sliceCapacity 32 (List.replicate (2 ^ 27) 0) ≠
      (List.replicate (2 ^ 27) (0 : Nat)).length * 32 := by
  have h0 : sliceCapacity 32 (List.replicate (2 ^ 27) 0) =
      capacityFormula32 (List.replicate (2 ^ 27) (0 : Nat)).length := rfl
  have h1 : capacityFormula32 (List.replicate (2 ^ 27) (0 : Nat)).length = 0 := by
    rw [List.length_replicate]
    norm_num [capacityFormula32]
  have h2 : (List.replicate (2 ^ 27) (0 : Nat)).length * 32 = 2 ^ 32 := by
    rw [List.length_replicate]
    norm_num
  refine ⟨h0.trans h1, h2, ?_⟩
  rw [h0.trans h1, h2]
  norm_num

/-- C7 (amended): `capacity` equals `word_count * W` exactly whenever the
mathematical product fits the element type, i.e. `word_count * W < 2 ^ W`;
beyond that the result is reduced modulo `2 ^ W`. -/
theorem capacity_exact_when_in_range (W : Nat) (s : List Nat)
    (hW : 0 < W) (hfit : s.length * W < 2 ^ W) :
    sliceCapacity W s = s.length * W := by
  have hlen : s.length < 2 ^ W := by
    have := Nat.le_mul_of_pos_right s.length hW
    omega
  have hWlt : W < 2 ^ W := Nat.lt_two_pow W
  unfold sliceCapacity
  rw [Nat.mod_eq_of_lt hlen, Nat.mod_eq_of_lt hWlt, Nat.mod_eq_of_lt hfit]

/-- Witness for C7: four 32-bit words give capacity 128. -/
theorem capacity_exact_when_in_range_witness :
    (0 < 32 ∧ ([0, 0, 0, 0] : List Nat).length * 32 < 2 ^ 32) ∧
    sliceCapacity 32 [0, 0, 0, 0] = ([0, 0, 0, 0] : List Nat).length * 32 :=
  ⟨⟨by decide, by decide⟩, capacity_exact_when_in_range 32 [0, 0, 0, 0] (by decide) (by decide)⟩

theorem lt_of_getElem?_eq_some {l : List Nat} {n a : Nat} (h : l[n]? = some a) :
    n < l.length := by
  by_contra hge
  rw [List.getElem?_eq_none (by omega)] at h
  cases h

theorem bitAt_update_or {W : Nat} (s : List Nat) (i j slot : Nat)
    (hW : 0 < W) (hne : j ≠ i) (hlt : i / W < s.length) (hslot : s.getD (i / W) 0 = slot) :
    bitAt W (s.set (i / W) (slot ||| (1 <<< (i % W)))) j = bitAt W s j := by
  unfold bitAt
  rcases index_split hW hne with hcase | ⟨heq, hmne⟩
  · rw [getD_set_ne _ _ (Ne.symm hcase)]
  · rw [heq, getD_set_self _ _ _ hlt, testBit_or_bit, hslot]
    simp [Ne.symm hmne]

theorem bitAt_update_and {W : Nat} (s : List Nat) (i j slot : Nat)
    (hW : 0 < W) (hne : j ≠ i) (hlt : i / W < s.length) (hslot : s.getD (i / W) 0 = slot) :
    bitAt W (s.set (i / W) (slot &&& complW W (1 <<< (i % W)))) j = bitAt W s j := by
  unfold bitAt
  rcases index_split hW hne with hcase | ⟨heq, hmne⟩
  · rw [getD_set_ne _ _ (Ne.symm hcase)]
  · rw [heq, getD_set_self _ _ _ hlt, testBit_and_compl_bit _ _ _ (Nat.mod_lt j hW), hslot]
    simp [Ne.symm hmne]

/-- C9: every mutating single-bit operation — `IdSet::set` / `IdSet::remove`
(`lib.rs`), `SharedBitSet::insert` / `remove` (atomic words), and
`BitSetMut::insert` / `remove` (exclusive slices) — changes at most the
single addressed bit `i`: every other global bit `j` of every word holds
the same value after the call as before it (also when the call fails and
changes nothing at all). -/
theorem mutators_change_at_most_one_bit (W : Nat) (s : List Nat) (i j : Nat)
    (hW : 0 < W) (hne : j ≠ i) :
    bitAt W (idSetSet W s i).2 j = bitAt W s j ∧
    bitAt W (idSetRemove W s i).2 j = bitAt W s j ∧
    bitAt W (sharedInsert W s i).2 j = bitAt W s j ∧
    bitAt W (sharedRemove W s i).2 j = bitAt W s j ∧
    bitAt W (sliceInsert W s i).2 j = bitAt W s j ∧
    bitAt W (sliceRemove W s i).2 j = bitAt W s j := by
  have hgd : ∀ slot, s[i / W]? = some slot → s.getD (i / W) 0 = slot := by
    intro slot hget
    rw [List.getD_eq_getElem?_getD, hget]
    rfl
  refine ⟨?_, ?_, ?_, ?_, ?_, ?_⟩
  · cases hget : s[i / W]? with
    | none => simp [idSetSet, hget]
    | some slot =>
      have hstep : (idSetSet W s i).2 = s.set (i / W) (slot ||| (1 <<< (i % W))) := by
        simp [idSetSet, hget]
      rw [hstep]
      exact bitAt_update_or s i j slot hW hne (lt_of_getElem?_eq_some hget) (hgd slot hget)
  · cases hget : s[i / W]? with
    | none => simp [idSetRemove, hget]
    | some slot =>
      have hstep : (idSetRemove W s i).2 = s.set (i / W) (slot &&& complW W (1 <<< (i % W))) := by
        simp [idSetRemove, hget]
      rw [hstep]
      exact bitAt_update_and s i j slot hW hne (lt_of_getElem?_eq_some hget) (hgd slot hget)
  · by_cases hfit : i / W < 2 ^ usizeBits
    · cases hget : s[i / W]? with
      | none => simp [sharedInsert, tryFromUsize, hfit, hget]
      | some slot =>
        have hstep : (sharedInsert W s i).2 = s.set (i / W) (slot ||| (1 <<< (i % W))) := by
          simp [sharedInsert, tryFromUsize, hfit, hget]
        rw [hstep]
        exact bitAt_update_or s i j slot hW hne (lt_of_getElem?_eq_some hget) (hgd slot hget)
    · simp [sharedInsert, tryFromUsize, hfit]
  · by_cases hfit : i / W < 2 ^ usizeBits
    · cases hget : s[i / W]? with
      | none => simp [sharedRemove, tryFromUsize, hfit, hget]
      | some slot =>
        have hstep : (sharedRemove W s i).2 = s.set (i / W) (slot &&& complW W (1 <<< (i % W))) := by
          simp [sharedRemove, tryFromUsize, hfit, hget]
        rw [hstep]
        exact bitAt_update_and s i j slot hW hne (lt_of_getElem?_eq_some hget) (hgd slot hget)
    · simp [sharedRemove, tryFromUsize, hfit]
  · by_cases hfit : i / W < 2 ^ usizeBits
    · cases hget : s[i / W]? with
      | none => simp [sliceInsert, tryFromUsize, hfit, hget]
      | some slot =>
        have hstep : (sliceInsert W s i).2 = s.set (i / W) (slot ||| (1 <<< (i % W))) := by
          simp [sliceInsert, tryFromUsize, hfit, hget]
        rw [hstep]
        exact bitAt_update_or s i j slot hW hne (lt_of_getElem?_eq_some hget) (hgd slot hget)
    · simp [sliceInsert, tryFromUsize, hfit]
  · by_cases hfit : i / W < 2 ^ usizeBits
    · cases hget : s[i / W]? with
      | none => simp [sliceRemove, tryFromUsize, hfit, hget]
      | some slot =>
        have hstep : (sliceRemove W s i).2 = s.set (i / W) (slot &&& complW W (1 <<< (i % W))) := by
          simp [sliceRemove, tryFromUsize, hfit, hget]
        rw [hstep]
        exact bitAt_update_and s i j slot hW hne (lt_of_getElem?_eq_some hget) (hgd slot hget)
    · simp [sliceRemove, tryFromUsize, hfit]

/-- Witness for C9: width 4, one word with value 9, insert/remove index 0,
observe bit 1. -/
theorem mutators_change_at_most_one_bit_witness :
    (0 < 4 ∧ (1 : Nat) ≠ 0) ∧
    (bitAt 4 (idSetSet 4 [9] 0).2 1 = bitAt 4 [9] 1 ∧
     bitAt 4 (idSetRemove 4 [9] 0).2 1 = bitAt 4 [9] 1 ∧
     bitAt 4 (sharedInsert 4 [9] 0).2 1 = bitAt 4 [9] 1 ∧
     bitAt 4 (sharedRemove 4 [9] 0).2 1 = bitAt 4 [9] 1 ∧
     bitAt 4 (sliceInsert 4 [9] 0).2 1 = bitAt 4 [9] 1 ∧
     bitAt 4 (sliceRemove 4 [9] 0).2 1 = bitAt 4 [9] 1) :=
  ⟨⟨by decide, by decide⟩,
    mutators_change_at_most_one_bit 4 [9] 0 1 (by decide) (by decide)⟩

/-- C10: whenever `set` / `insert` or `remove` reports its out-of-range
result (`Err(OutOfBoundsError)` for `IdSet`, `Err(slot_idx)` for the
exclusive slice insert, `None` for the shared and slice removes) on a
fixed-size backing, the backing words are completely unchanged; and
`remove` on the growable Vec backing never changes the number of words,
in particular it never grows the vector. -/
theorem failed_ops_leave_state_unchanged (W : Nat) (s : List Nat) (i : Nat)
    (h1 : (idSetSet W s i).1 = none)
    (h2 : (idSetRemove W s i).1 = none)
    (h3 : (sharedInsert W s i).1 = none)
    (h4 : (sharedRemove W s i).1 = none)
    (h5 : (sliceRemove W s i).1 = none) :
    (idSetSet W s i).2 = s ∧
    (idSetRemove W s i).2 = s ∧
    (sharedInsert W s i).2 = s ∧
    (sharedRemove W s i).2 = s ∧
    (sliceRemove W s i).2 = s ∧
    (∀ k, (sliceInsert W s i).1 = some (Except.error k) → (sliceInsert W s i).2 = s) ∧
    (vecRemove W s i).2.length = s.length := by
  refine ⟨?_, ?_, ?_, ?_, ?_, ?_, ?_⟩
  · cases hget : s[i / W]? with
    | none => simp [idSetSet, hget]
    | some slot =>
      have : (idSetSet W s i).1 = some (slot &&& (1 <<< (i % W)) != 0) := by
        simp [idSetSet, hget]
      rw [this] at h1
      cases h1
  · cases hget : s[i / W]? with
    | none => simp [idSetRemove, hget]
    | some slot =>
      have : (idSetRemove W s i).1 = some (slot &&& (1 <<< (i % W)) != 0) := by
        simp [idSetRemove, hget]
      rw [this] at h2
      cases h2
  · by_cases hfit : i / W < 2 ^ usizeBits
    · cases hget : s[i / W]? with
      | none => simp [sharedInsert, tryFromUsize, hfit, hget]
      | some slot =>
        have : (sharedInsert W s i).1 = some (slot &&& (1 <<< (i % W)) != 0) := by
          simp [sharedInsert, tryFromUsize, hfit, hget]
        rw [this] at h3
        cases h3
    · simp [sharedInsert, tryFromUsize, hfit]
  · by_cases hfit : i / W < 2 ^ usizeBits
    · cases hget : s[i / W]? with
      | none => simp [sharedRemove, tryFromUsize, hfit, hget]
      | some slot =>
        have : (sharedRemove W s i).1 = some (slot &&& (1 <<< (i % W)) != 0) := by
          simp [sharedRemove, tryFromUsize, hfit, hget]
        rw [this] at h4
        cases h4
    · simp [sharedRemove, tryFromUsize, hfit]
  · by_cases hfit : i / W < 2 ^ usizeBits
    · cases hget : s[i / W]? with
      | none => simp [sliceRemove, tryFromUsize, hfit, hget]
      | some slot =>
        have : (sliceRemove W s i).1 = some (slot &&& (1 <<< (i % W)) != 0) := by
          simp [sliceRemove, tryFromUsize, hfit, hget]
        rw [this] at h5
        cases h5
    · simp [sliceRemove, tryFromUsize, hfit]
  · intro k hk
    by_cases hfit : i / W < 2 ^ usizeBits
    · cases hget : s[i / W]? with
      | none => simp [sliceInsert, tryFromUsize, hfit, hget]
      | some slot =>
        have : (sliceInsert W s i).1 = some (Except.ok (slot &&& (1 <<< (i % W)) != 0)) := by
          simp [sliceInsert, tryFromUsize, hfit, hget]
        rw [this] at hk
        cases hk
    · simp [sliceInsert, tryFromUsize, hfit]
  · show (sliceRemove W s i).2.length = s.length
    by_cases hfit : i / W < 2 ^ usizeBits
    · cases hget : s[i / W]? with
      | none => simp [sliceRemove, tryFromUsize, hfit, hget]
      | some slot =>
        have : (sliceRemove W s i).2 = s.set (i / W) (slot &&& complW W (1 <<< (i % W))) := by
          simp [sliceRemove, tryFromUsize, hfit, hget]
        rw [this, List.length_set]
    · simp [sliceRemove, tryFromUsize, hfit]

/-- Witness for C10: width 4, one word, index 100 is out of range for
every variant; all calls fail and each leaves the single word untouched. -/
theorem failed_ops_leave_state_unchanged_witness :
    ((idSetSet 4 [2] 100).1 = none ∧
     (idSetRemove 4 [2] 100).1 = none ∧
     (sharedInsert 4 [2] 100).1 = none ∧
     (sharedRemove 4 [2] 100).1 = none ∧
     (sliceRemove 4 [2] 100).1 = none) ∧
    ((idSetSet 4 [2] 100).2 = [2] ∧
     (idSetRemove 4 [2] 100).2 = [2] ∧
     (sharedInsert 4 [2] 100).2 = [2] ∧
     (sharedRemove 4 [2] 100).2 = [2] ∧
     (sliceRemove 4 [2] 100).2 = [2] ∧
     (∀ k, (sliceInsert 4 [2] 100).1 = some (Except.error k) → (sliceInsert 4 [2] 100).2 = [2]) ∧
     (vecRemove 4 [2] 100).2.length = ([2] : List Nat).length) :=
  ⟨⟨by decide, by decide, by decide, by decide, by decide⟩,
    failed_ops_leave_state_unchanged 4 [2] 100
      (by decide) (by decide) (by decide) (by decide) (by decide)⟩
